import Mathlib

/-!
# Verification of the `generate.js` extraction-and-generation pipeline

A shallow embedding of `src/generate.js` (material-web-community/material-web-react).
Source text is modelled as `List Char`.  JavaScript regular-expression matching is
embedded by deterministic scanning functions; for each regex of the source the
relevant backtracking behaviour is resolved statically (greedy runs over character
classes that are disjoint from the literal that follows cannot backtrack, lazy
groups expand one character at a time, a failed match attempt restarts one
character later), so each scanner below computes exactly the leftmost match the
JavaScript engine computes.  File-system access is modelled by `Except Unit`
values: `Except.error ()` stands for a rejected promise (unreadable file or
directory).
-/

namespace MWGen

/-- Source text / strings, as lists of characters. -/
abbrev Str := List Char

/-- JavaScript `\s` (whitespace class): ASCII whitespace plus the Unicode
space separators, NBSP, BOM and the line/paragraph separators, as listed in
the ECMAScript `WhiteSpace`/`LineTerminator` productions.  The same set is
used by `String.prototype.trim`. -/
def isWs (c : Char) : Bool :=
  c.toNat = 32 || c.toNat = 9 || c.toNat = 10 || c.toNat = 11 || c.toNat = 12 ||
  c.toNat = 13 || c.toNat = 160 || c.toNat = 5760 ||
  (8192 ≤ c.toNat && c.toNat ≤ 8202) ||
  c.toNat = 8232 || c.toNat = 8233 || c.toNat = 8239 || c.toNat = 8287 ||
  c.toNat = 12288 || c.toNat = 65279

/-- JavaScript `\w` (word class): `[A-Za-z0-9_]`. -/
def isWordChar (c : Char) : Bool :=
  (65 ≤ c.toNat && c.toNat ≤ 90) || (97 ≤ c.toNat && c.toNat ≤ 122) ||
  (48 ≤ c.toNat && c.toNat ≤ 57) || c.toNat = 95

/-- `String.prototype.includes(pat)`: `pat` occurs as a contiguous substring. -/
def hasSub (pat : Str) : Str → Bool
  | [] => pat.isEmpty
  | c :: cs => pat.isPrefixOf (c :: cs) || hasSub pat cs

/-- `String.prototype.replace(pat, rep)` with a *string* pattern: replaces only
the first occurrence of `pat` (the whole string is returned unchanged when
`pat` does not occur). -/
def replaceFirst (pat rep : Str) : Str → Str
  | [] => []
  | c :: cs =>
    if pat.isPrefixOf (c :: cs) then rep ++ (c :: cs).drop pat.length
    else c :: replaceFirst pat rep cs

/-- `String.prototype.split('\n')`. -/
def splitNl : Str → List Str
  | [] => [[]]
  | c :: cs =>
    match splitNl cs with
    | [] => [[]]
    | l :: ls => if c = '\n' then [] :: l :: ls else (c :: l) :: ls

def trimLeft (l : Str) : Str := l.dropWhile isWs

def trimRight (l : Str) : Str := (l.reverse.dropWhile isWs).reverse

/-- `String.prototype.trim()`. -/
def trim (l : Str) : Str := trimRight (trimLeft l)

/-- `line.replace(/^\s*\*\s?/, '')`: strip an optional leading run of
whitespace followed by `*` and at most one further whitespace character.
If the line has no `*` after its leading whitespace, it is unchanged. -/
def stripStar (l : Str) : Str :=
  match l.dropWhile isWs with
  | '*' :: r =>
    match r with
    | c :: r2 => if isWs c then r2 else c :: r2
    | [] => []
  | _ => l

/-- `line.startsWith('@')`. -/
def startsAt (l : Str) : Bool :=
  match l with
  | c :: _ => c = '@'
  | [] => false

/-- The per-line JSDoc clean-up of `extractDocumentation`: split on newlines,
strip comment markers and trim each line, drop blank lines and `@...` lines. -/
def cleanedLines (cap : Str) : List Str :=
  ((splitNl cap).map (fun l => trim (stripStar l))).filter
    (fun l => !l.isEmpty && !startsAt l)

/-- Cleaned class documentation: lines rejoined with `'\n'`. -/
def cleanDocNl (cap : Str) : Str :=
  List.intercalate ('\n' :: []) (cleanedLines cap)

/-- Cleaned property documentation: lines rejoined with `' '`. -/
def cleanDocSp (cap : Str) : Str :=
  List.intercalate (' ' :: []) (cleanedLines cap)

/-! ## `extractClassName` : first match of `/export class (Md\w+)/` -/

/-- One match attempt of `/export class (Md\w+)/` at the head of `l`:
the literal `export class Md` followed by a non-empty greedy run of word
characters; the capture is `Md` plus that run. -/
def classNameAt (l : Str) : Option Str :=
  if ("export class Md".toList).isPrefixOf l then
    match (l.drop 15).takeWhile isWordChar with
    | [] => none
    | w => some ('M' :: 'd' :: w)
  else none

/-- `extractClassName`: leftmost match of `/export class (Md\w+)/`, returning
the capture, `null` (`none`) when there is no match. -/
def extractClassName : Str → Option Str
  | [] => none
  | c :: cs =>
    match classNameAt (c :: cs) with
    | some r => some r
    | none => extractClassName cs

/-! ## `extractTagName` : first match of `/@customElement\(['"`]([^'"`]+)['"`]\)/` -/

def isQuote (c : Char) : Bool := c = '\x27' || c = '"' || c = '\x60'

/-- One match attempt of the `@customElement` regex at the head of `l`:
the literal `@customElement(`, an opening quote, a non-empty greedy run of
non-quote characters (the capture), a closing quote, and `)`.  The greedy run
is maximal, so the character after it is a quote whenever one exists; no
backtracking into the run is possible because its characters cannot match the
quote class. -/
def tagNameAt (l : Str) : Option Str :=
  if ("@customElement(".toList).isPrefixOf l then
    match l.drop 15 with
    | q :: rest =>
      if isQuote q then
        match rest.takeWhile (fun c => !isQuote c) with
        | [] => none
        | run =>
          match rest.drop run.length with
          | q2 :: ')' :: _ => if isQuote q2 then some run else none
          | _ => none
      else none
    | [] => none
  else none

/-- `extractTagName`: leftmost match of the `@customElement` regex, returning
the capture. -/
def extractTagName : Str → Option Str
  | [] => none
  | c :: cs =>
    match tagNameAt (c :: cs) with
    | some r => some r
    | none => extractTagName cs

/-! ## `extractDocumentation`, class part :
first match of `/\/\*\*\s*([\s\S]*?)\s*\*\/\s*export class/`

The lazy group `([\s\S]*?)` grows one character at a time; at each candidate
end position the tail `\s*\*\/\s*export class` must match.  Both `\s*` runs
are effectively possessive: shrinking one would require `*` (resp. `e`) to be
a whitespace character.  A match attempt therefore succeeds at the first
`/**` after which some `*/` is followed, modulo whitespace, by
`export class`; when the attempt at one start position fails, every later
attempt fails as well, and the scan below restarts one position later exactly
as the JavaScript engine does. -/

/-- The tail `\s*\*\/\s*export class` tested at a candidate end position of
the lazy capture. -/
def classDocTrailing (l : Str) : Bool :=
  ("*/".toList).isPrefixOf (l.dropWhile isWs) &&
    ("export class".toList).isPrefixOf (((l.dropWhile isWs).drop 2).dropWhile isWs)

/-- Lazy expansion of `([\s\S]*?)`: the capture is the shortest prefix whose
complement satisfies `classDocTrailing`. -/
def classDocScan : Str → Option Str
  | [] => none
  | c :: cs =>
    if classDocTrailing (c :: cs) then some []
    else (classDocScan cs).map (fun cap => c :: cap)

/-- Leftmost-match scan for the class-documentation regex: try each position;
a position can start a match only at a literal `/**`, after which the greedy
`\s*` and the lazy capture run. -/
def classDocFrom : Str → Option Str
  | [] => none
  | c :: cs =>
    if ("/**".toList).isPrefixOf (c :: cs) then
      match classDocScan (((c :: cs).drop 3).dropWhile isWs) with
      | some cap => some cap
      | none => classDocFrom cs
    else classDocFrom cs

/-! ## `extractDocumentation`, property part :
`matchAll` of `/\/\*\*\s*([\s\S]*?)\s*\*\/\s*@property[^}]*?\s+(\w+)/g` -/

/-- The part `[^}]*?\s+(\w+)` after the literal `@property`: the lazy
`[^}]*?` grows one character at a time (it can never include `}`), and at
each position `\s+(\w+)` is tried: a non-empty greedy whitespace run followed
by a non-empty greedy word run (neither can backtrack, the classes being
disjoint).  Returns the second capture and the suffix following the whole
match. -/
def matchAfterProperty : Str → Option (Str × Str)
  | [] => none
  | c :: cs =>
    if isWs c then
      match ((c :: cs).dropWhile isWs).takeWhile isWordChar with
      | [] => matchAfterProperty cs
      | w => some (w, ((c :: cs).dropWhile isWs).drop w.length)
    else if c = '\x7d' then none
    else matchAfterProperty cs

/-- The tail `\s*\*\/\s*@property[^}]*?\s+(\w+)` tested at a candidate end
position of the lazy first capture. -/
def propTrailing (l : Str) : Option (Str × Str) :=
  if ("*/".toList).isPrefixOf (l.dropWhile isWs) then
    if ("@property".toList).isPrefixOf (((l.dropWhile isWs).drop 2).dropWhile isWs) then
      matchAfterProperty ((((l.dropWhile isWs).drop 2).dropWhile isWs).drop 9)
    else none
  else none

/-- Lazy expansion of the first capture of the property regex: returns the
first capture, the second capture (the `\w+`), and the suffix after the whole
match. -/
def lazyScanProp : Str → Option (Str × Str × Str)
  | [] => none
  | c :: cs =>
    (propTrailing (c :: cs)).elim
      ((lazyScanProp cs).map (fun r => (c :: r.1, r.2.1, r.2.2)))
      (fun ws => some ([], ws.1, ws.2))

/-- Leftmost-match scan for the property regex (one match of the global
regex, starting at the given position). -/
def matchOneProp : Str → Option (Str × Str × Str)
  | [] => none
  | c :: cs =>
    if ("/**".toList).isPrefixOf (c :: cs) then
      match lazyScanProp (((c :: cs).drop 3).dropWhile isWs) with
      | some r => some r
      | none => matchOneProp cs
    else matchOneProp cs

/-- `matchAll` iteration: after each match the scan resumes at the suffix
following that match.  Fuel-based recursion; every successful match consumes
at least the `/**`, the `@property`, one whitespace character and one word
character, so `l.length` units of fuel always suffice (each step either
advances by at least one character or ends the scan). -/
def allPropMatchesF : Nat → Str → List (Str × Str)
  | 0, _ => []
  | Nat.succ n, l =>
    match matchOneProp l with
    | none => []
    | some (cap, w, suf) => (cap, w) :: allPropMatchesF n suf

/-- All matches of the property regex over the content, in order: pairs of
(first capture, second capture). -/
def allPropMatches (l : Str) : List (Str × Str) := allPropMatchesF l.length l

/-! ## JavaScript object literals used as string maps -/

/-- Assignment `obj[k] = v` on a JavaScript object modelled as an ordered
association list: an existing key keeps its position and gets the new value,
a new key is appended. -/
def objInsert : List (Str × Str) → Str → Str → List (Str × Str)
  | [], k, v => [(k, v)]
  | (k0, v0) :: rest, k, v =>
    if k0 = k then (k, v) :: rest else (k0, v0) :: objInsert rest k v

/-- Property lookup `obj[k]`. -/
def objGet : List (Str × Str) → Str → Option Str
  | [], _ => none
  | (k0, v0) :: rest, k => if k0 = k then some v0 else objGet rest k

/-- The `propertyDocs` object: for each match, clean the first capture into a
one-line doc; skip it when the cleaned doc is empty, otherwise assign it
under the second capture. -/
def buildPropDocs (ms : List (Str × Str)) : List (Str × Str) :=
  ms.foldl
    (fun acc m =>
      match cleanDocSp m.1 with
      | [] => acc
      | cd => objInsert acc m.2 cd)
    []

structure DocResult where
  documentation : Str
  propertyDocs : List (Str × Str)
deriving DecidableEq, Repr

/-- `extractDocumentation(content)`. -/
def extractDocumentation (content : Str) : DocResult :=
  { documentation :=
      match classDocFrom content with
      | some cap => cleanDocNl cap
      | none => []
    propertyDocs := buildPropDocs (allPropMatches content) }

/-! ## `extractEvents` : `matchAll` of `/@fires\s+(\w+)\s+\{[^}]*\}\s*([^@\n]*)/g` -/

/-- One match attempt of the `@fires` regex at the head of `l`: the literal
`@fires`, a non-empty whitespace run, a non-empty word run (the event name),
a non-empty whitespace run, `{`, a greedy run of non-`}` characters, `}`, a
greedy whitespace run and a greedy run of characters other than `@` and
newline (the unused second capture).  None of the greedy runs can backtrack
(each is followed by a literal outside its class).  Returns the event name
and the suffix after the whole match. -/
def firesMatchAt (l : Str) : Option (Str × Str) :=
  if ("@fires".toList).isPrefixOf l then
    let r1 := l.drop 6
    match r1.takeWhile isWs with
    | [] => none
    | ws1 =>
      let r2 := r1.drop ws1.length
      match r2.takeWhile isWordChar with
      | [] => none
      | nm =>
        let r3 := r2.drop nm.length
        match r3.takeWhile isWs with
        | [] => none
        | ws2 =>
          match r3.drop ws2.length with
          | '\x7b' :: r4 =>
            let body := r4.takeWhile (fun c => !(c = '\x7d'))
            match r4.drop body.length with
            | '\x7d' :: r5 =>
              let r6 := r5.dropWhile isWs
              some (nm, r6.drop ((r6.takeWhile (fun c => !(c = '@') && !(c = '\n'))).length))
            | _ => none
          | _ => none
  else none

/-- `matchAll` iteration for the `@fires` regex: scan left to right, restart
after each match.  Fuel-based; every step consumes at least one character of
`l` (a successful match consumes at least the ten characters
`@fires`\ `\s\w\s{}`), so `l.length` units of fuel always suffice. -/
def firesScanFromF : Nat → Str → List Str
  | 0, _ => []
  | Nat.succ n, l =>
    match firesMatchAt l with
    | some (nm, suf) => nm :: firesScanFromF n suf
    | none =>
      match l with
      | [] => []
      | _ :: cs => firesScanFromF n cs

/-- All `@fires` event names in the content, in match order. -/
def firesScanFrom (l : Str) : List Str := firesScanFromF l.length l

/-- `String.prototype.toUpperCase()` restricted to one character.  The event
names it is applied to are captures of `\w+`, hence ASCII; on ASCII,
`toUpperCase` maps `a`-`z` to `A`-`Z` and fixes everything else. -/
def toUpperAscii (c : Char) : Char :=
  if 97 ≤ c.toNat && c.toNat ≤ 122 then Char.ofNat (c.toNat - 32) else c

/-- `eventName.charAt(0).toUpperCase() + eventName.slice(1)`. -/
def capFirst : Str → Str
  | [] => []
  | c :: cs => toUpperAscii c :: cs

/-- The React-style handler name: `'on' + capitalised event name`. -/
def handlerName (nm : Str) : Str := 'o' :: 'n' :: capFirst nm

/-- The `events` object built from the scanned `@fires` names: each event
name is assigned under its handler name, in match order (a later event whose
handler name collides overwrites the earlier entry). -/
def firesScan (content : Str) : List (Str × Str) :=
  (firesScanFrom content).foldl (fun acc nm => objInsert acc (handlerName nm) nm) []

/-- The file filter of `extractEvents`:
`file.endsWith('.ts') && !file.includes('styles') && !file.includes('test')`. -/
def eventsFileCandidate (f : Str) : Bool :=
  (".ts".toList).isSuffixOf f && !hasSub ("styles".toList) f && !hasSub ("test".toList) f

/-- The loop of `extractEvents` over the listing of the `internal`
subdirectory: the first candidate file is scanned and its event map returned
immediately (even when empty); a failing read of that file raises, which the
surrounding `catch` turns into the empty map. -/
def eventsLoop : List (Str × Except Unit Str) → List (Str × Str)
  | [] => []
  | (f, rd) :: rest =>
    if eventsFileCandidate f then
      match rd with
      | Except.error _ => []
      | Except.ok content => firesScan content
    else eventsLoop rest

/-- `extractEvents(componentPath)`: the `internal` subdirectory is given as a
directory-read result; a missing or unreadable directory (`Except.error`)
yields the empty map via the `catch`. -/
def extractEvents : Except Unit (List (Str × Except Unit Str)) → List (Str × Str)
  | Except.error _ => []
  | Except.ok files => eventsLoop files

/-! ## `findAllComponentVariants` -/

structure Variant where
  fileName : Str
  className : Str
  tagName : Str
  importPath : Str
  events : List (Str × Str)
  documentation : Str
  propertyDocs : List (Str × Str)
deriving DecidableEq, Repr

/-- The file filter of `findAllComponentVariants`:
`file.endsWith('.ts') && !file.includes('internal') && !file.includes('test')
&& !file.includes('demo')`. -/
def variantFileCandidate (f : Str) : Bool :=
  (".ts".toList).isSuffixOf f && !hasSub ("internal".toList) f &&
    !hasSub ("test".toList) f && !hasSub ("demo".toList) f

/-- The per-file body of the loop of `findAllComponentVariants`: the file
yields a variant exactly when its text contains both `@customElement` and
`export class` and both the class-name and the tag-name extraction succeed.
`events` is the result of `extractEvents` on the component directory (the
source calls it once per variant; the call is pure in this model, so the
shared value is passed in). -/
def mkVariant (componentName file content : Str) (events : List (Str × Str)) :
    Option Variant :=
  if hasSub ("@customElement".toList) content && hasSub ("export class".toList) content then
    match extractClassName content, extractTagName content with
    | some cn, some tn =>
      let docs := extractDocumentation content
      some
        { fileName := replaceFirst (".ts".toList) [] file
          className := cn
          tagName := tn
          importPath :=
            ("@material/web/".toList) ++ componentName ++ ('/' :: []) ++
              replaceFirst (".ts".toList) (".js".toList) file
          events := events
          documentation := docs.documentation
          propertyDocs := docs.propertyDocs }
    | _, _ => none
  else none

/-- The loop of `findAllComponentVariants` over the directory listing.
`none` models an uncaught exception inside the `try` block: the first
candidate file whose read fails aborts the loop, discarding every variant
collected so far (the `catch` then returns `[]`).  Non-candidate files are
never read, so their read results are irrelevant. -/
def variantsLoop (componentName : Str) (events : List (Str × Str)) :
    List (Str × Except Unit Str) → Option (List Variant)
  | [] => some []
  | (f, rd) :: rest =>
    if variantFileCandidate f then
      match rd with
      | Except.error _ => none
      | Except.ok content =>
        match mkVariant componentName f content events with
        | some v => (variantsLoop componentName events rest).map (fun vs => v :: vs)
        | none => variantsLoop componentName events rest
    else variantsLoop componentName events rest

/-- `findAllComponentVariants(componentPath, componentName)`: a failing
directory read, or a failing read of any candidate file, yields `[]` through
the surrounding `catch`. -/
def findAllComponentVariants (componentName : Str)
    (listing : Except Unit (List (Str × Except Unit Str)))
    (internal : Except Unit (List (Str × Except Unit Str))) : List Variant :=
  match listing with
  | Except.error _ => []
  | Except.ok files =>
    (variantsLoop componentName (extractEvents internal) files).getD []

/-! ## `analyzeComponentStructure` -/

/-- One entry of the cloned repository root: its name, whether it is a
directory, and the contents used by the extractors (the listing of the
component directory and of its `internal` subdirectory, each a possibly
failing directory read whose files are possibly failing file reads). -/
structure DirEntry where
  name : Str
  isDir : Bool
  listing : Except Unit (List (Str × Except Unit Str))
  internal : Except Unit (List (Str × Except Unit Str))

structure Component where
  name : Str
  variants : List Variant
deriving DecidableEq, Repr

/-- `entry.name.startsWith('.')`. -/
def startsDot : Str → Bool
  | c :: _ => c = '.'
  | [] => false

/-- The fixed exclusion set of non-component folder names. -/
def excludedNames : List Str :=
  [("docs".toList), ("testing".toList), ("tokens".toList), ("scripts".toList),
    ("catalog".toList)]

/-- The directory filter of `analyzeComponentStructure`. -/
def eligibleEntry (e : DirEntry) : Bool :=
  e.isDir && !startsDot e.name && !decide (e.name ∈ excludedNames)

/-- `analyzeComponentStructure()`: the eligible directories, each kept only
when it yields at least one variant. -/
def analyzeComponentStructure (entries : List DirEntry) : List Component :=
  entries.filterMap
    (fun e =>
      if eligibleEntry e then
        match findAllComponentVariants e.name e.listing e.internal with
        | [] => none
        | vs => some { name := e.name, variants := vs }
      else none)

/-! ## `generateReactWrapper`

Pure string assembly; the template literals of the source are transcribed
character for character (`\x7b`/`\x7d` are `{`/`}`, `\x27` is `'`, `\x60`
is a backtick). -/

def importOf (v : Variant) : Str :=
  ("import \x7b ".toList) ++ v.className ++ (" as _".toList) ++ v.className ++
    (" \x7d from \x27".toList) ++ v.importPath ++ ('\x27' :: [])

def typeDefOf (v : Variant) : Str :=
  ("\n/**\n * Props for the \x60".toList) ++ v.className ++
    ("\x60 component.\n * This interface is used to provide the props for the \x60".toList) ++
    v.className ++ ("\x60 component.\n *\n */\nexport type ".toList) ++ v.className ++
    ("Props = ComponentProps<typeof ".toList) ++ v.className ++ (">".toList)

def elementInterfaceOf (v : Variant) : Str :=
  ("\nexport interface ".toList) ++ v.className ++ ("Element extends _".toList) ++
    v.className ++ (" \x7b\x7d".toList)

/-- The `events:` object literal of a component definition. -/
def eventsObjLit (events : List (Str × Str)) : Str :=
  if events.length > 0 then
    ("\x7b\n        ".toList) ++
      List.intercalate (",\n        ".toList)
        (events.map (fun e => e.1 ++ (": \x27".toList) ++ e.2 ++ ('\x27' :: []))) ++
      (",\n    \x7d".toList)
  else ("\x7b\x7d".toList)

/-- `@param` lines generated from the property docs. -/
def paramDocsOf (pd : List (Str × Str)) : Str :=
  List.intercalate ('\n' :: [])
    (pd.map (fun e => (" * @param \x7bany\x7d ".toList) ++ e.1 ++ (" - ".toList) ++ e.2))

/-- `className.replace(/([A-Z])/g, ' $1')`: a space is inserted before every
capital letter. -/
def spaceCaps (l : Str) : Str :=
  (l.map (fun c => if 65 ≤ c.toNat && c.toNat ≤ 90 then (' ' :: c :: []) else (c :: []))).flatten

/-- The documentation block of a component definition: the extracted class
documentation when present, otherwise the synthesized fallback from the class
name; either way the `@param` lines are appended. -/
def fullDocumentationOf (v : Variant) : Str :=
  if v.documentation.isEmpty then
    ("Material Design ".toList) ++
      trim (spaceCaps (replaceFirst ("Md".toList) [] v.className)) ++
      (" component.\n * This component is a React wrapper around the \x60".toList) ++
      v.tagName ++ ("\x60 custom element.\n *\n * @component\n".toList) ++
      paramDocsOf v.propertyDocs
  else
    v.documentation ++ ("\n *\n * @component\n".toList) ++ paramDocsOf v.propertyDocs

def componentDefOf (v : Variant) : Str :=
  ("\n/**\n * ".toList) ++ fullDocumentationOf v ++ ("\n */\nexport const ".toList) ++
    v.className ++ (" = createComponent(\x7b\n    react: React,\n    tagName: \x27".toList) ++
    v.tagName ++ ("\x27,\n    elementClass: _".toList) ++ v.className ++
    (",\n    events: ".toList) ++ eventsObjLit v.events ++ (",\n\x7d)".toList)

/-- `generateReactWrapper(component)`: the empty string when the component
has no variants, otherwise the header (with the generation timestamp `ts`,
`new Date().toISOString()` in the source) followed by the fixed sections. -/
def generateReactWrapper (ts : Str) (c : Component) : Str :=
  if c.variants.isEmpty then []
  else
    ("/**\n * @fileoverview React wrappers for Material Web ".toList) ++ c.name ++
      (" components\n * \n * This file was auto-generated on ".toList) ++ ts ++
      ("\n * \n * DO NOT EDIT MANUALLY - This file is generated by generate.js\n * To regenerate, run: npm run generate\n * \n * @generated\n */".toList) ++
      ("\n\n\x27use client\x27\n\nimport \x7b createComponent \x7d from \x27@lit/react\x27\nimport React, \x7b ComponentProps \x7d from \x27react\x27\n".toList) ++
      List.intercalate ('\n' :: []) (c.variants.map importOf) ++ ('\n' :: []) ++
      List.intercalate ('\n' :: []) (c.variants.map typeDefOf) ++ ('\n' :: []) ++
      List.intercalate ('\n' :: []) (c.variants.map elementInterfaceOf) ++ ('\n' :: []) ++
      List.intercalate ('\n' :: []) (c.variants.map componentDefOf) ++ ('\n' :: [])

/-! ## `createOutputStructure` / `generateMainIndex` -/

structure ExportRecord where
  componentName : Str
  propsName : Str
  elementName : Str
  folder : Str
deriving DecidableEq, Repr

/-- The flattened export list collected by `createOutputStructure`, one
record per variant, in component order then variant order. -/
def allExports (comps : List Component) : List ExportRecord :=
  (comps.map
    (fun c =>
      c.variants.map
        (fun v =>
          { componentName := v.className
            propsName := v.className ++ ("Props".toList)
            elementName := v.className ++ ("Element".toList)
            folder := c.name }))).flatten

def indexLineOf (e : ExportRecord) : Str :=
  ("export \x7b ".toList) ++ e.componentName ++ (", type ".toList) ++ e.propsName ++
    (", type ".toList) ++ e.elementName ++ (" \x7d from \x27./".toList) ++ e.folder ++
    ('\x27' :: [])

/-- `generateMainIndex(allExports)` with the generation timestamp `ts`. -/
def generateMainIndex (ts : Str) (exps : List ExportRecord) : Str :=
  ("/**\n * @fileoverview Main exports for all Material Web React components\n * \n * This file was auto-generated on ".toList) ++
    ts ++
    ("\n * \n * DO NOT EDIT MANUALLY - This file is generated by generate.js\n * To regenerate, run: npm run generate\n * \n * @generated\n */\n\n".toList) ++
    List.intercalate ('\n' :: []) (exps.map indexLineOf) ++ ('\n' :: [])

/-- The full generation pipeline on an already-cloned tree: the analysed
components each yield `<name>/index.tsx` with their wrapper module, followed
by the aggregate manifest `index.ts`. -/
def runPipeline (entries : List DirEntry) (ts : Str) : List (Str × Str) :=
  (analyzeComponentStructure entries).map
      (fun c => (c.name ++ ("/index.tsx".toList), generateReactWrapper ts c)) ++
    [(("index.ts".toList),
      generateMainIndex ts (allExports (analyzeComponentStructure entries)))]

/-- Renders a timestamp-independent skeleton: each output file is a fixed
prefix, the timestamp, and a fixed suffix. -/
def renderSkeleton (skel : List (Str × Str × Str)) (ts : Str) : List (Str × Str) :=
  skel.map (fun e => (e.1, e.2.1 ++ ts ++ e.2.2))

/-- Predicate used by the scanning lemmas: the list is empty or starts with
a non-whitespace character. -/
def headNonWs : Str → Bool
  | [] => true
  | c :: _ => !isWs c

/-- Predicate used by the scanning lemmas: the list is empty or starts with
a non-word character (so a preceding `\w+` run is maximal). -/
def headNonWord : Str → Bool
  | [] => true
  | c :: _ => !isWordChar c

/-- The part of a generated wrapper module that precedes the timestamp. -/
def wrapperPre (c : Component) : Str :=
  ("/**\n * @fileoverview React wrappers for Material Web ".toList) ++ c.name ++
    (" components\n * \n * This file was auto-generated on ".toList)

/-- The part of a generated wrapper module that follows the timestamp. -/
def wrapperPost (c : Component) : Str :=
  ("\n * \n * DO NOT EDIT MANUALLY - This file is generated by generate.js\n * To regenerate, run: npm run generate\n * \n * @generated\n */".toList) ++
    ("\n\n\x27use client\x27\n\nimport \x7b createComponent \x7d from \x27@lit/react\x27\nimport React, \x7b ComponentProps \x7d from \x27react\x27\n".toList) ++
    List.intercalate ('\n' :: []) (c.variants.map importOf) ++ ('\n' :: []) ++
    List.intercalate ('\n' :: []) (c.variants.map typeDefOf) ++ ('\n' :: []) ++
    List.intercalate ('\n' :: []) (c.variants.map elementInterfaceOf) ++ ('\n' :: []) ++
    List.intercalate ('\n' :: []) (c.variants.map componentDefOf) ++ ('\n' :: [])

/-- The part of the aggregate manifest that precedes the timestamp. -/
def indexPre : Str :=
  ("/**\n * @fileoverview Main exports for all Material Web React components\n * \n * This file was auto-generated on ".toList)

/-- The part of the aggregate manifest that follows the timestamp. -/
def indexPost (exps : List ExportRecord) : Str :=
  ("\n * \n * DO NOT EDIT MANUALLY - This file is generated by generate.js\n * To regenerate, run: npm run generate\n * \n * @generated\n */\n\n".toList) ++
    List.intercalate ('\n' :: []) (exps.map indexLineOf) ++ ('\n' :: [])

/-- A sample input file: a custom-element declaration with tag `my-button`
and an exported class `MdButton`. -/
def sampleButtonTs : Str :=
  ("@customElement(\x27my-button\x27)\nexport class MdButton extends Button \x7b\x7d".toList)


/-! ## Helper lemmas -/

theorem not_ws_of_wordChar {c : Char} (h : isWordChar c = true) : isWs c = false := by
  simp only [isWordChar, Bool.or_eq_true, Bool.and_eq_true, decide_eq_true_eq] at h
  simp only [isWs, Bool.or_eq_false_iff, Bool.and_eq_false_iff, decide_eq_false_iff_not,
    Bool.and_eq_true, decide_eq_true_eq]
  omega

theorem commentOpen_eq : ("/**".toList) = '/' :: '*' :: '*' :: [] := rfl

theorem commentClose_eq : ("*/".toList) = '*' :: '/' :: [] := rfl

theorem commentOpen_append (t : Str) : ("/**".toList) ++ t = '/' :: '*' :: '*' :: t := rfl

theorem commentClose_append (t : Str) : ("*/".toList) ++ t = '*' :: '/' :: t := rfl

theorem dropWhile_ws_nil_of_all (l : Str) (h : l.all isWs = true) :
    l.dropWhile isWs = [] := by
  rw [List.dropWhile_eq_nil_iff]
  intro x hx
  exact (List.all_eq_true.mp h) x hx

theorem dropWhile_ws_append_nonws (A : Str) (x : Char) (X : Str) (hx : isWs x = false) :
    List.dropWhile isWs (A ++ x :: X) = List.dropWhile isWs A ++ x :: X := by
  induction A with
  | nil => simp [List.dropWhile_cons, hx]
  | cons c A ih =>
    cases hc : isWs c
    · simp [List.dropWhile_cons, hc]
    · simp [List.dropWhile_cons, hc, ih]

theorem dropWhile_ws_append (A B : Str) (hB : headNonWs B = true) :
    List.dropWhile isWs (A ++ B) = List.dropWhile isWs A ++ B := by
  cases B with
  | nil => simp
  | cons c X =>
    exact dropWhile_ws_append_nonws A c X (by simpa [headNonWs] using hB)

theorem isPrefixOf_append_self (p rest : Str) : p.isPrefixOf (p ++ rest) = true :=
  List.isPrefixOf_iff_prefix.mpr (List.prefix_append p rest)

theorem hasSub_dropWhile (pat : Str) (p : Char → Bool) :
    ∀ l : Str, hasSub pat l = false → hasSub pat (l.dropWhile p) = false := by
  intro l
  induction l with
  | nil => intro h; simpa using h
  | cons c cs ih =>
    intro h
    simp only [hasSub, Bool.or_eq_false_iff] at h
    rw [List.dropWhile_cons]
    split
    · exact ih h.2
    · simp [hasSub, h.1, h.2]

theorem trimRight_of_all_ws (l : Str) (h : l.all isWs = true) : trimRight l = [] := by
  unfold trimRight
  rw [dropWhile_ws_nil_of_all _ (by simpa using h), List.reverse_nil]

theorem trimRight_cons_of_not_all (c : Char) (d : Str) (h : (c :: d).all isWs = false) :
    trimRight (c :: d) = c :: trimRight d := by
  unfold trimRight
  rw [List.reverse_cons, List.dropWhile_append]
  by_cases hd : d.all isWs = true
  · have hdn : d.reverse.dropWhile isWs = [] := dropWhile_ws_nil_of_all _ (by simpa using hd)
    have hc : isWs c = false := by
      simp only [List.all_cons, hd, Bool.and_true] at h
      exact h
    rw [hdn]
    simp [List.dropWhile_cons, hc]
  · have hdn : (d.reverse.dropWhile isWs).isEmpty = false := by
      rw [Bool.eq_false_iff]
      intro he
      apply hd
      rw [List.isEmpty_iff] at he
      rw [List.dropWhile_eq_nil_iff] at he
      rw [List.all_eq_true]
      intro x hx
      exact he x (List.mem_reverse.mpr hx)
    rw [hdn]
    simp

theorem starSlash_prefix_false :
    ∀ (d Y : Str), hasSub ("*/".toList) d = false → d.all isWs = false →
      ("*/".toList).isPrefixOf (List.dropWhile isWs (d ++ '*' :: '/' :: Y)) = false := by
  intro d
  induction d with
  | nil => intro Y h ha; simp at ha
  | cons c d ih =>
    intro Y h ha
    simp only [hasSub, Bool.or_eq_false_iff] at h
    obtain ⟨h1, h2⟩ := h
    simp only [List.cons_append]
    rw [List.dropWhile_cons]
    split
    next hc =>
      apply ih Y h2
      simp only [List.all_cons, hc, Bool.true_and] at ha
      exact ha
    next hc =>
      by_cases hcs : c = '*'
      · subst hcs
        cases d with
        | nil => simp [commentClose_eq, List.isPrefixOf]
        | cons e d2 =>
          by_cases he : e = '/'
          · subst he
            rw [commentClose_eq] at h1
            simp [List.isPrefixOf] at h1
          · simp only [commentClose_eq, List.cons_append, List.isPrefixOf, Bool.and_eq_false_iff]
            right
            left
            simp [beq_iff_eq]
            intro hh
            exact he hh.symm
      · simp only [commentClose_eq, List.isPrefixOf, Bool.and_eq_false_iff]
        left
        simp [beq_iff_eq]
        intro hh
        exact hcs hh.symm

theorem classDocTrailing_boundary (ws1 w rest : Str) (h1 : ws1.all isWs = true)
    (h2 : w.all isWs = true) :
    classDocTrailing (ws1 ++ '*' :: '/' :: (w ++ ("export class".toList) ++ rest)) = true := by
  unfold classDocTrailing
  rw [dropWhile_ws_append_nonws ws1 '*' _ (by decide)]
  rw [dropWhile_ws_nil_of_all ws1 h1]
  simp only [List.nil_append]
  rw [show ('*' :: '/' :: (w ++ ("export class".toList) ++ rest)) =
      ("*/".toList) ++ (w ++ ("export class".toList) ++ rest) from rfl]
  rw [isPrefixOf_append_self]
  rw [show ((("*/".toList) ++ (w ++ ("export class".toList) ++ rest)).drop 2) =
      w ++ ("export class".toList) ++ rest from rfl]
  rw [List.append_assoc, dropWhile_ws_append w (("export class".toList) ++ rest) rfl]
  rw [dropWhile_ws_nil_of_all w h2]
  simp only [List.nil_append]
  rw [isPrefixOf_append_self]
  rfl

theorem classDocScan_through (w rest : Str) (hw : w.all isWs = true) :
    ∀ d : Str, hasSub ("*/".toList) d = false →
      classDocScan (d ++ '*' :: '/' :: (w ++ ("export class".toList) ++ rest)) =
        some (trimRight d) := by
  intro d
  induction d with
  | nil =>
    intro _
    have ht := classDocTrailing_boundary [] w rest rfl hw
    rw [List.nil_append] at ht
    rw [List.nil_append]
    simp only [classDocScan, ht, if_true]
    rfl
  | cons c d ih =>
    intro h
    have hsplit := h
    simp only [hasSub, Bool.or_eq_false_iff] at hsplit
    obtain ⟨h1, h2⟩ := hsplit
    by_cases hall : (c :: d).all isWs = true
    · have ht := classDocTrailing_boundary (c :: d) w rest hall hw
      simp only [List.cons_append] at ht ⊢
      simp only [classDocScan, ht, if_true]
      rw [trimRight_of_all_ws _ hall]
    · have hfalse : classDocTrailing
          (c :: (d ++ '*' :: '/' :: (w ++ ("export class".toList) ++ rest))) = false := by
        unfold classDocTrailing
        have hsf := starSlash_prefix_false (c :: d)
          (w ++ ("export class".toList) ++ rest) h (by simpa using hall)
        simp only [List.cons_append] at hsf
        rw [hsf]
        simp
      simp only [List.cons_append, List.append_eq, classDocScan, hfalse, Bool.false_eq_true,
        if_false]
      rw [ih h2]
      rw [trimRight_cons_of_not_all c d (by simpa using hall)]
      rfl

theorem slashStarStar_prefix_false :
    ∀ (x : Char) (c0 t : Str), hasSub ("/**".toList) (x :: c0) = false →
      ("/**".toList).isPrefixOf (x :: (c0 ++ '/' :: '*' :: '*' :: t)) = false := by
  intro x c0 t h
  simp only [hasSub, Bool.or_eq_false_iff] at h
  obtain ⟨h1, _⟩ := h
  by_cases hx : x = '/'
  · subst hx
    cases c0 with
    | nil => simp [commentOpen_eq, List.isPrefixOf]
    | cons y c0' =>
      by_cases hy : y = '*'
      · subst hy
        cases c0' with
        | nil => simp [commentOpen_eq, List.isPrefixOf]
        | cons z c0'' =>
          by_cases hz : z = '*'
          · subst hz
            rw [commentOpen_eq] at h1
            simp [List.isPrefixOf] at h1
          · simp only [commentOpen_eq, List.cons_append, List.isPrefixOf]
            simp [beq_iff_eq]
            intro hh
            exact absurd hh.symm hz
      · simp only [commentOpen_eq, List.cons_append, List.isPrefixOf]
        simp [beq_iff_eq]
        intro hh
        exact absurd hh.symm hy
  · simp only [commentOpen_eq, List.cons_append, List.isPrefixOf]
    simp [beq_iff_eq]
    intro hh
    exact absurd hh.symm hx

theorem classDocFrom_through :
    ∀ (c0 t cap : Str), hasSub ("/**".toList) c0 = false →
      classDocScan (t.dropWhile isWs) = some cap →
      classDocFrom (c0 ++ (("/**".toList) ++ t)) = some cap := by
  intro c0
  induction c0 with
  | nil =>
    intro t cap _ hscan
    rw [List.nil_append, commentOpen_append]
    simp only [classDocFrom]
    rw [show ("/**".toList).isPrefixOf ('/' :: '*' :: '*' :: t) = true from
      isPrefixOf_append_self ("/**".toList) t]
    simp only [if_true]
    rw [show (('/' :: '*' :: '*' :: t).drop 3) = t from rfl]
    rw [hscan]
  | cons x c0' ih =>
    intro t cap h hscan
    have h2 : hasSub ("/**".toList) c0' = false := by
      simp only [hasSub, Bool.or_eq_false_iff] at h
      exact h.2
    rw [commentOpen_append, List.cons_append]
    simp only [classDocFrom]
    have hp := slashStarStar_prefix_false x c0' t h
    rw [hp]
    simp only [Bool.false_eq_true, if_false]
    have := ih t cap h2 hscan
    rw [commentOpen_append] at this
    exact this

theorem takeWhile_word_append (a z : Str) (ha : a.all isWordChar = true)
    (hz : headNonWord z = true) : (a ++ z).takeWhile isWordChar = a := by
  rw [List.takeWhile_append_of_pos (fun x hx => (List.all_eq_true.mp ha) x hx)]
  cases z with
  | nil => simp
  | cons c zs =>
    have hc : isWordChar c = false := by simpa [headNonWord] using hz
    simp [List.takeWhile_cons, hc]

set_option maxHeartbeats 1600000 in
theorem matchAfterProperty_spec :
    ∀ (p1 s1 a m : Str),
      p1.all (fun c => !isWs c && !(c = '\x7d')) = true →
      s1.all isWs = true → s1 ≠ [] →
      a.all isWordChar = true → a ≠ [] →
      headNonWord m = true →
      matchAfterProperty (p1 ++ (s1 ++ (a ++ m))) = some (a, m) := by
  intro p1
  induction p1 with
  | nil =>
    intro s1 a m _ hs1 hs1ne ha hane hm
    rw [List.nil_append]
    cases s1 with
    | nil => exact absurd rfl hs1ne
    | cons s s1' =>
      have hsall : isWs s = true ∧ s1'.all isWs = true := by
        simpa [List.all_cons] using hs1
      cases a with
      | nil => exact absurd rfl hane
      | cons a0 a' =>
        have ha0 : isWordChar a0 = true ∧ a'.all isWordChar = true := by
          simpa [List.all_cons] using ha
        rw [List.cons_append, List.cons_append]
        have hdw : (s :: (s1' ++ (a0 :: (a' ++ m)))).dropWhile isWs = a0 :: (a' ++ m) := by
          simp only [List.dropWhile_cons, hsall.1, if_true]
          rw [dropWhile_ws_append_nonws s1' a0 (a' ++ m) (not_ws_of_wordChar ha0.1),
            dropWhile_ws_nil_of_all s1' hsall.2, List.nil_append]
        have htw2 : List.takeWhile isWordChar (a0 :: (a' ++ m)) = a0 :: a' := by
          rw [← List.cons_append]
          exact takeWhile_word_append (a0 :: a') m ha hm
        simp only [matchAfterProperty, hsall.1, if_true, hdw, htw2]
        rw [← List.cons_append a0 a' m, List.drop_left]
  | cons q p1' ih =>
    intro s1 a m hp1 hs1 hs1ne ha hane hm
    have hq : (!isWs q && !decide (q = '\x7d')) = true ∧
        p1'.all (fun c => !isWs c && !(c = '\x7d')) = true := by
      simpa [List.all_cons] using hp1
    have hq1 : isWs q = false := by
      have := hq.1
      simp only [Bool.and_eq_true, Bool.not_eq_true'] at this
      exact this.1
    have hq2 : ¬(q = '\x7d') := by
      have := hq.1
      simp only [Bool.and_eq_true, Bool.not_eq_true', decide_eq_false_iff_not] at this
      exact this.2
    rw [List.cons_append]
    simp only [matchAfterProperty, hq1, Bool.false_eq_true, if_false, hq2, if_neg hq2]
    exact ih s1 a m hq.2 hs1 hs1ne ha hane hm

set_option maxHeartbeats 1600000 in
theorem propTrailing_boundary (ws1 w1 p1 s1 a m : Str)
    (hws1 : ws1.all isWs = true) (hw1 : w1.all isWs = true)
    (hp1 : p1.all (fun c => !isWs c && !(c = '\x7d')) = true)
    (hs1 : s1.all isWs = true) (hs1ne : s1 ≠ [])
    (ha : a.all isWordChar = true) (hane : a ≠ [])
    (hm : headNonWord m = true) :
    propTrailing (ws1 ++ '*' :: '/' ::
        (w1 ++ (("@property".toList) ++ (p1 ++ (s1 ++ (a ++ m)))))) = some (a, m) := by
  unfold propTrailing
  rw [dropWhile_ws_append_nonws ws1 '*' _ (by decide), dropWhile_ws_nil_of_all ws1 hws1,
    List.nil_append]
  rw [show ('*' :: '/' :: (w1 ++ (("@property".toList) ++ (p1 ++ (s1 ++ (a ++ m)))))) =
      ("*/".toList) ++ (w1 ++ (("@property".toList) ++ (p1 ++ (s1 ++ (a ++ m))))) from rfl]
  rw [isPrefixOf_append_self]
  simp only [if_true]
  rw [show ((("*/".toList) ++ (w1 ++ (("@property".toList) ++ (p1 ++ (s1 ++ (a ++ m)))))).drop 2)
      = w1 ++ (("@property".toList) ++ (p1 ++ (s1 ++ (a ++ m)))) from rfl]
  rw [dropWhile_ws_append w1 (("@property".toList) ++ (p1 ++ (s1 ++ (a ++ m)))) rfl]
  rw [dropWhile_ws_nil_of_all w1 hw1, List.nil_append]
  rw [isPrefixOf_append_self]
  simp only [if_true]
  rw [show ((("@property".toList) ++ (p1 ++ (s1 ++ (a ++ m)))).drop 9) =
      p1 ++ (s1 ++ (a ++ m)) from rfl]
  exact matchAfterProperty_spec p1 s1 a m hp1 hs1 hs1ne ha hane hm

theorem lazyScanProp_cons_some {c : Char} {cs w suf : Str}
    (h : propTrailing (c :: cs) = some (w, suf)) :
    lazyScanProp (c :: cs) = some ([], w, suf) := by
  unfold lazyScanProp
  rw [h]
  rfl

theorem lazyScanProp_cons_none {c : Char} {cs : Str} (h : propTrailing (c :: cs) = none) :
    lazyScanProp (c :: cs) =
      (lazyScanProp cs).map (fun r => (c :: r.1, r.2.1, r.2.2)) := by
  conv_lhs => unfold lazyScanProp
  rw [h]
  rfl

theorem lazyScanProp_through (w1 p1 s1 a m : Str) (hw1 : w1.all isWs = true)
    (hp1 : p1.all (fun c => !isWs c && !(c = '\x7d')) = true)
    (hs1 : s1.all isWs = true) (hs1ne : s1 ≠ [])
    (ha : a.all isWordChar = true) (hane : a ≠ [])
    (hm : headNonWord m = true) :
    ∀ d : Str, hasSub ("*/".toList) d = false →
      lazyScanProp (d ++ '*' :: '/' ::
          (w1 ++ (("@property".toList) ++ (p1 ++ (s1 ++ (a ++ m)))))) =
        some (trimRight d, a, m) := by
  intro d
  induction d with
  | nil =>
    intro _
    have ht := propTrailing_boundary [] w1 p1 s1 a m rfl hw1 hp1 hs1 hs1ne ha hane hm
    rw [List.nil_append] at ht
    rw [List.nil_append]
    rw [lazyScanProp_cons_some ht]
    rfl
  | cons c d ih =>
    intro h
    have hsplit := h
    simp only [hasSub, Bool.or_eq_false_iff] at hsplit
    obtain ⟨h1, h2⟩ := hsplit
    by_cases hall : (c :: d).all isWs = true
    · have ht := propTrailing_boundary (c :: d) w1 p1 s1 a m hall hw1 hp1 hs1 hs1ne ha hane hm
      simp only [List.cons_append] at ht ⊢
      rw [lazyScanProp_cons_some ht]
      rw [trimRight_of_all_ws _ hall]
    · have hfalse : propTrailing (c :: (d ++ '*' :: '/' ::
          (w1 ++ (("@property".toList) ++ (p1 ++ (s1 ++ (a ++ m))))))) = none := by
        unfold propTrailing
        have hsf := starSlash_prefix_false (c :: d)
          (w1 ++ (("@property".toList) ++ (p1 ++ (s1 ++ (a ++ m))))) h (by simpa using hall)
        simp only [List.cons_append] at hsf
        rw [hsf]
        simp
      simp only [List.cons_append]
      rw [lazyScanProp_cons_none hfalse]
      rw [ih h2]
      rw [trimRight_cons_of_not_all c d (by simpa using hall)]
      rfl

set_option maxHeartbeats 1600000 in
theorem matchOneProp_through :
    ∀ (c0 t : Str) (r : Str × Str × Str), hasSub ("/**".toList) c0 = false →
      lazyScanProp (t.dropWhile isWs) = some r →
      matchOneProp (c0 ++ (("/**".toList) ++ t)) = some r := by
  intro c0
  induction c0 with
  | nil =>
    intro t r _ hscan
    rw [List.nil_append, commentOpen_append]
    simp only [matchOneProp]
    rw [show ("/**".toList).isPrefixOf ('/' :: '*' :: '*' :: t) = true from
      isPrefixOf_append_self ("/**".toList) t]
    simp only [if_true]
    rw [show (('/' :: '*' :: '*' :: t).drop 3) = t from rfl]
    rw [hscan]
  | cons x c0' ih =>
    intro t r h hscan
    have h2 : hasSub ("/**".toList) c0' = false := by
      simp only [hasSub, Bool.or_eq_false_iff] at h
      exact h.2
    rw [commentOpen_append, List.cons_append]
    simp only [matchOneProp]
    have hp := slashStarStar_prefix_false x c0' t h
    rw [hp]
    simp only [Bool.false_eq_true, if_false]
    have := ih t r h2 hscan
    rw [commentOpen_append] at this
    exact this

theorem matchOneProp_none : ∀ l : Str, hasSub ("/**".toList) l = false →
    matchOneProp l = none := by
  intro l
  induction l with
  | nil => intro _; rfl
  | cons c cs ih =>
    intro h
    simp only [hasSub, Bool.or_eq_false_iff] at h
    simp only [matchOneProp, h.1, Bool.false_eq_true, if_false]
    exact ih h.2

set_option maxHeartbeats 1600000 in
theorem matchOneProp_structured (c0 A w1 p1 s1 a m : Str)
    (h0 : hasSub ("/**".toList) c0 = false)
    (hA : hasSub ("*/".toList) A = false)
    (hw1 : w1.all isWs = true)
    (hp1 : p1.all (fun c => !isWs c && !(c = '\x7d')) = true)
    (hs1 : s1.all isWs = true) (hs1ne : s1 ≠ [])
    (ha : a.all isWordChar = true) (hane : a ≠ [])
    (hm : headNonWord m = true) :
    matchOneProp (c0 ++ (("/**".toList) ++ (A ++ ('*' :: '/' ::
        (w1 ++ (("@property".toList) ++ (p1 ++ (s1 ++ (a ++ m))))))))) =
      some (trim A, a, m) := by
  apply matchOneProp_through c0 _ _ h0
  rw [dropWhile_ws_append_nonws A '*' _ (by decide)]
  exact lazyScanProp_through w1 p1 s1 a m hw1 hp1 hs1 hs1ne ha hane hm
    (A.dropWhile isWs) (hasSub_dropWhile ("*/".toList) isWs A hA)

theorem headNonWord_append_open (sep Z : Str) (h : headNonWord sep = true) :
    headNonWord (sep ++ (("/**".toList) ++ Z)) = true := by
  cases sep with
  | nil => rfl
  | cons c s => simpa [headNonWord, List.cons_append] using h

theorem allPropMatchesF_step (n : Nat) (l cap w suf : Str)
    (h : matchOneProp l = some (cap, w, suf)) :
    allPropMatchesF (n + 1) l = (cap, w) :: allPropMatchesF n suf := by
  simp [allPropMatchesF, h]

theorem allPropMatchesF_stop (n : Nat) (l : Str) (h : matchOneProp l = none) :
    allPropMatchesF n l = [] := by
  cases n <;> simp [allPropMatchesF, h]

theorem matchOneProp_cons_skip {c : Char} {cs : Str}
    (hp : ("/**".toList).isPrefixOf (c :: cs) = false) :
    matchOneProp (c :: cs) = matchOneProp cs := by
  conv_lhs => unfold matchOneProp
  rw [hp]
  rfl

theorem matchOneProp_some_length : ∀ (l : Str) (r : Str × Str × Str),
    matchOneProp l = some r → 2 ≤ l.length := by
  intro l
  induction l with
  | nil =>
    intro r h
    exact absurd h (by simp [matchOneProp])
  | cons c cs ih =>
    intro r h
    by_cases hp : ("/**".toList).isPrefixOf (c :: cs) = true
    · have hle := List.IsPrefix.length_le (List.isPrefixOf_iff_prefix.mp hp)
      have e3 : ("/**".toList).length = 3 := rfl
      omega
    · rw [matchOneProp_cons_skip (Bool.eq_false_iff.mpr hp)] at h
      have := ih r h
      simp only [List.length_cons]
      omega

theorem matchAfterProperty_length :
    ∀ (l w m : Str), matchAfterProperty l = some (w, m) → m.length < l.length := by
  intro l
  induction l with
  | nil =>
    intro w m h
    exact absurd h (by simp [matchAfterProperty])
  | cons c cs ih =>
    intro w m h
    by_cases hc : isWs c = true
    · cases htw : ((c :: cs).dropWhile isWs).takeWhile isWordChar with
      | nil =>
        have h2 : matchAfterProperty cs = some (w, m) := by
          simpa only [matchAfterProperty, hc, if_true, htw] using h
        have := ih w m h2
        simp only [List.length_cons]
        omega
      | cons w0 w2 =>
        have h2 : some ((w0 :: w2), ((c :: cs).dropWhile isWs).drop (w0 :: w2).length) =
            some (w, m) := by
          simpa only [matchAfterProperty, hc, if_true, htw] using h
        obtain ⟨hw, hm⟩ : w0 :: w2 = w ∧ ((c :: cs).dropWhile isWs).drop (w0 :: w2).length = m := by
          simpa using h2
        have hd : ((c :: cs).dropWhile isWs).length ≤ cs.length + 1 := by
          have := (List.dropWhile_suffix (l := c :: cs) (p := isWs)).length_le
          simpa using this
        rw [← hm, List.length_drop]
        simp only [List.length_cons]
        omega
    · by_cases hbr : c = '\x7d'
      · exact absurd h
          (by subst hbr
              simp [matchAfterProperty, show isWs '\x7d' = false from by decide])
      · have h2 : matchAfterProperty cs = some (w, m) := by
          simpa only [matchAfterProperty, hc, Bool.false_eq_true, if_false, if_neg hbr] using h
        have := ih w m h2
        simp only [List.length_cons]
        omega

theorem propTrailing_length (l w m : Str) (h : propTrailing l = some (w, m)) :
    m.length < l.length := by
  unfold propTrailing at h
  split at h
  next hpre =>
    split at h
    · have hml := matchAfterProperty_length _ w m h
      have hA : (l.dropWhile isWs).length ≤ l.length :=
        (List.dropWhile_suffix (p := isWs)).length_le
      have h2le : 2 ≤ (l.dropWhile isWs).length := by
        have := List.IsPrefix.length_le (List.isPrefixOf_iff_prefix.mp hpre)
        simpa using this
      have hB : (((l.dropWhile isWs).drop 2).dropWhile isWs).length ≤
          (l.dropWhile isWs).length - 2 := by
        have := (List.dropWhile_suffix (l := (l.dropWhile isWs).drop 2) (p := isWs)).length_le
        rwa [List.length_drop] at this
      rw [List.length_drop] at hml
      omega
    · exact absurd h (by simp)
  next => exact absurd h (by simp)

theorem lazyScanProp_length :
    ∀ (l cap w suf : Str), lazyScanProp l = some (cap, w, suf) → suf.length < l.length := by
  intro l
  induction l with
  | nil =>
    intro cap w suf h
    exact absurd h (by simp [lazyScanProp])
  | cons c cs ih =>
    intro cap w suf h
    cases hpt : propTrailing (c :: cs) with
    | some r =>
      obtain ⟨w0, suf0⟩ := r
      rw [lazyScanProp_cons_some hpt] at h
      obtain ⟨_, _, hsuf⟩ : ([] : Str) = cap ∧ w0 = w ∧ suf0 = suf := by simpa using h
      rw [← hsuf]
      exact propTrailing_length (c :: cs) w0 suf0 hpt
    | none =>
      rw [lazyScanProp_cons_none hpt] at h
      cases hls : lazyScanProp cs with
      | none => rw [hls] at h; exact absurd h (by simp)
      | some r =>
        obtain ⟨c1, w1, s1⟩ := r
        rw [hls] at h
        obtain ⟨_, _, hsuf⟩ : c :: c1 = cap ∧ w1 = w ∧ s1 = suf := by simpa using h
        rw [← hsuf]
        have := ih c1 w1 s1 hls
        simp only [List.length_cons]
        omega

theorem matchOneProp_cons_found {c : Char} {cs : Str} {r : Str × Str × Str}
    (hpre : ("/**".toList).isPrefixOf (c :: cs) = true)
    (hls : lazyScanProp (((c :: cs).drop 3).dropWhile isWs) = some r) :
    matchOneProp (c :: cs) = some r := by
  conv_lhs => unfold matchOneProp
  rw [hpre, hls]
  rfl

theorem matchOneProp_cons_notfound {c : Char} {cs : Str}
    (hpre : ("/**".toList).isPrefixOf (c :: cs) = true)
    (hls : lazyScanProp (((c :: cs).drop 3).dropWhile isWs) = none) :
    matchOneProp (c :: cs) = matchOneProp cs := by
  conv_lhs => unfold matchOneProp
  rw [hpre, hls]
  rfl

theorem matchOneProp_length :
    ∀ (l : Str) (r : Str × Str × Str), matchOneProp l = some r → r.2.2.length < l.length := by
  intro l
  induction l with
  | nil =>
    intro r h
    exact absurd h (by simp [matchOneProp])
  | cons c cs ih =>
    intro r h
    by_cases hpre : ("/**".toList).isPrefixOf (c :: cs) = true
    · cases hls : lazyScanProp (((c :: cs).drop 3).dropWhile isWs) with
      | some r0 =>
        rw [matchOneProp_cons_found hpre hls] at h
        have hr : r0 = r := by simpa using h
        subst hr
        obtain ⟨cap, w, suf⟩ := r0
        have := lazyScanProp_length _ cap w suf hls
        dsimp only
        have hd : ((((c :: cs).drop 3).dropWhile isWs)).length ≤ ((c :: cs).drop 3).length :=
          (List.dropWhile_suffix (p := isWs)).length_le
        rw [List.length_drop] at hd
        simp only [List.length_cons] at hd ⊢
        omega
      | none =>
        rw [matchOneProp_cons_notfound hpre hls] at h
        have := ih r h
        simp only [List.length_cons]
        omega
    · rw [matchOneProp_cons_skip (Bool.eq_false_iff.mpr hpre)] at h
      have := ih r h
      simp only [List.length_cons]
      omega

/-- Fuel irrelevance for the property-regex `matchAll` loop: any two fuel
values at least the input's length yield the same match list (each match
consumes at least one character, so the scan always terminates within
`l.length` steps). -/
theorem allPropMatchesF_congr :
    ∀ (n m : Nat) (l : Str), l.length ≤ n → l.length ≤ m →
      allPropMatchesF n l = allPropMatchesF m l := by
  intro n
  induction n with
  | zero =>
    intro m l hn _
    have hl : l = [] := List.length_eq_zero.mp (Nat.le_zero.mp hn)
    subst hl
    rw [allPropMatchesF_stop 0 [] (by rfl), allPropMatchesF_stop m [] (by rfl)]
  | succ n ih =>
    intro m l hn hm
    cases hmp : matchOneProp l with
    | none => rw [allPropMatchesF_stop _ _ hmp, allPropMatchesF_stop _ _ hmp]
    | some r =>
      obtain ⟨cap, w, suf⟩ := r
      have hlen := matchOneProp_length l (cap, w, suf) hmp
      cases m with
      | zero =>
        have hl : l = [] := List.length_eq_zero.mp (Nat.le_zero.mp hm)
        subst hl
        exact absurd hmp (by simp [matchOneProp])
      | succ m =>
        rw [allPropMatchesF_step n l cap w suf hmp, allPropMatchesF_step m l cap w suf hmp]
        have := ih m suf (by simp at hlen ⊢; omega) (by simp at hlen ⊢; omega)
        rw [this]

/-- The fuel `l.length` used by `allPropMatches` is always sufficient. -/
theorem allPropMatches_fuel_sufficient (n : Nat) (l : Str) (h : l.length ≤ n) :
    allPropMatchesF n l = allPropMatches l :=
  allPropMatchesF_congr n l.length l h le_rfl

theorem allPropMatches_two (L M1 T capA a capB b : Str)
    (h1 : matchOneProp L = some (capA, a, M1))
    (h2 : matchOneProp M1 = some (capB, b, T))
    (h3 : matchOneProp T = none) :
    allPropMatches L = [(capA, a), (capB, b)] := by
  unfold allPropMatches
  obtain ⟨k, hk⟩ : ∃ k, L.length = k + 2 :=
    ⟨L.length - 2, by have := matchOneProp_some_length L (capA, a, M1) h1; omega⟩
  rw [hk]
  rw [allPropMatchesF_step (k + 1) L capA a M1 h1]
  rw [allPropMatchesF_step k M1 capB b T h2]
  rw [allPropMatchesF_stop k T h3]

theorem buildPropDocs_two (x1 x2 k1 k2 : Str) (hne : k1 ≠ k2)
    (h1 : cleanDocSp x1 ≠ []) (h2 : cleanDocSp x2 ≠ []) :
    buildPropDocs [(x1, k1), (x2, k2)] = [(k1, cleanDocSp x1), (k2, cleanDocSp x2)] := by
  unfold buildPropDocs
  simp only [List.foldl_cons, List.foldl_nil]
  cases hc1 : cleanDocSp x1 with
  | nil => exact absurd hc1 h1
  | cons y ys =>
    cases hc2 : cleanDocSp x2 with
    | nil => exact absurd hc2 h2
    | cons z zs =>
      simp only [objInsert, if_neg hne]

theorem firesMatchAt_length (l nm suf : Str) (h : firesMatchAt l = some (nm, suf)) :
    suf.length < l.length := by
  unfold firesMatchAt at h
  dsimp only at h
  split at h
  next hpre =>
    have h6 : 6 ≤ l.length := by
      have := List.IsPrefix.length_le (List.isPrefixOf_iff_prefix.mp hpre)
      simpa using this
    split at h
    · exact absurd h (by simp)
    · split at h
      · exact absurd h (by simp)
      · split at h
        · exact absurd h (by simp)
        · split at h
          next r4 heq4 =>
            split at h
            next r5 heq5 =>
              obtain ⟨hnm, hsuf⟩ :
                  List.takeWhile isWordChar
                      (List.drop (List.takeWhile isWs (List.drop 6 l)).length
                        (List.drop 6 l)) = nm ∧
                    List.drop
                        (List.takeWhile (fun c => !decide (c = '@') && !decide (c = '\n'))
                          (List.dropWhile isWs r5)).length
                        (List.dropWhile isWs r5) = suf := by
                simpa using h
              have e4 := congrArg List.length heq4
              simp only [List.length_drop, List.length_cons] at e4
              have e5 := congrArg List.length heq5
              simp only [List.length_drop, List.length_cons] at e5
              have e6 : (List.dropWhile isWs r5).length ≤ r5.length :=
                (List.dropWhile_suffix (p := isWs)).length_le
              have e7 : suf.length ≤ (List.dropWhile isWs r5).length := by
                rw [← hsuf, List.length_drop]
                omega
              omega
            next x heq5 => exact absurd h (by simp)
          next x heq4 => exact absurd h (by simp)
  next => exact absurd h (by simp)

theorem firesScanFromF_step (n : Nat) (l nm suf : Str) (h : firesMatchAt l = some (nm, suf)) :
    firesScanFromF (n + 1) l = nm :: firesScanFromF n suf := by
  simp [firesScanFromF, h]

theorem firesScanFromF_skip (n : Nat) (c : Char) (cs : Str)
    (h : firesMatchAt (c :: cs) = none) :
    firesScanFromF (n + 1) (c :: cs) = firesScanFromF n cs := by
  simp [firesScanFromF, h]

theorem firesScanFromF_nil : ∀ m : Nat, firesScanFromF m [] = [] := by
  intro m
  cases m with
  | zero => rfl
  | succ m => simp [firesScanFromF, show firesMatchAt [] = none from rfl]

/-- Fuel irrelevance for the `@fires` `matchAll` loop: any two fuel values at
least the input's length yield the same event list (each step either advances
by one character or consumes a whole match of at least ten characters). -/
theorem firesScanFromF_congr :
    ∀ (n m : Nat) (l : Str), l.length ≤ n → l.length ≤ m →
      firesScanFromF n l = firesScanFromF m l := by
  intro n
  induction n with
  | zero =>
    intro m l hn _
    have hl : l = [] := List.length_eq_zero.mp (Nat.le_zero.mp hn)
    subst hl
    rw [firesScanFromF_nil, firesScanFromF_nil]
  | succ n ih =>
    intro m l hn hm
    cases hma : firesMatchAt l with
    | some r =>
      obtain ⟨nm, suf⟩ := r
      have hlen := firesMatchAt_length l nm suf hma
      cases m with
      | zero =>
        have hl : l = [] := List.length_eq_zero.mp (Nat.le_zero.mp hm)
        subst hl
        exact absurd hma (by simp [show firesMatchAt [] = none from rfl])
      | succ m =>
        rw [firesScanFromF_step n l nm suf hma, firesScanFromF_step m l nm suf hma,
          ih m suf (by omega) (by omega)]
    | none =>
      cases l with
      | nil => rw [firesScanFromF_nil, firesScanFromF_nil]
      | cons c cs =>
        cases m with
        | zero => simp at hm
        | succ m =>
          rw [firesScanFromF_skip n c cs hma, firesScanFromF_skip m c cs hma]
          exact ih m cs (by simp at hn; omega) (by simp at hm; omega)

/-- The fuel `l.length` used by `firesScanFrom` is always sufficient. -/
theorem firesScanFrom_fuel_sufficient (n : Nat) (l : Str) (h : l.length ≤ n) :
    firesScanFromF n l = firesScanFrom l :=
  firesScanFromF_congr n l.length l h le_rfl

theorem variantsLoop_length (n : Str) (ev : List (Str × Str)) :
    ∀ files vs, variantsLoop n ev files = some vs → vs.length ≤ files.length := by
  intro files
  induction files with
  | nil =>
    intro vs h
    simp only [variantsLoop, Option.some.injEq] at h
    simp [← h]
  | cons p rest ih =>
    intro vs h
    obtain ⟨f, rd⟩ := p
    simp only [variantsLoop] at h
    split at h
    · cases rd with
      | error e => exact absurd h (by simp)
      | ok content =>
        dsimp only at h
        cases hm : mkVariant n f content ev with
        | some v =>
          rw [hm] at h
          cases hr : variantsLoop n ev rest with
          | none => rw [hr] at h; exact absurd h (by simp)
          | some vs2 =>
            rw [hr] at h
            simp only [Option.map, Option.some.injEq] at h
            have := ih vs2 hr
            rw [← h]
            simp only [List.length_cons]
            omega
        | none =>
          rw [hm] at h
          exact Nat.le_succ_of_le (ih vs h)
    · exact Nat.le_succ_of_le (ih vs h)

theorem findAllComponentVariants_length (n : Str) (files : List (Str × Except Unit Str))
    (internal : Except Unit (List (Str × Except Unit Str))) :
    (findAllComponentVariants n (Except.ok files) internal).length ≤ files.length := by
  unfold findAllComponentVariants
  dsimp only
  cases h : variantsLoop n (extractEvents internal) files with
  | none => simp
  | some vs => simpa using variantsLoop_length n (extractEvents internal) files vs h

theorem mkVariant_isSome (n f content : Str) (ev : List (Str × Str)) :
    (mkVariant n f content ev).isSome = true ↔
      (hasSub ("@customElement".toList) content = true ∧
        hasSub ("export class".toList) content = true ∧
        (extractClassName content).isSome = true ∧
        (extractTagName content).isSome = true) := by
  unfold mkVariant
  cases h1 : hasSub ("@customElement".toList) content <;>
    cases h2 : hasSub ("export class".toList) content <;>
      cases h3 : extractClassName content <;>
        cases h4 : extractTagName content <;>
          simp [h1, h2, h3, h4]

theorem variantsLoop_skip (n : Str) (ev : List (Str × Str)) (f : Str)
    (rd : Except Unit Str) (rest : List (Str × Except Unit Str))
    (hf : variantFileCandidate f = false) :
    variantsLoop n ev ((f, rd) :: rest) = variantsLoop n ev rest := by
  simp only [variantsLoop, hf]
  simp

theorem findAllComponentVariants_skip (n : Str)
    (internal : Except Unit (List (Str × Except Unit Str))) (f : Str)
    (rd : Except Unit Str) (rest : List (Str × Except Unit Str))
    (hf : variantFileCandidate f = false) :
    findAllComponentVariants n (Except.ok ((f, rd) :: rest)) internal =
      findAllComponentVariants n (Except.ok rest) internal := by
  unfold findAllComponentVariants
  dsimp only
  rw [variantsLoop_skip n _ f rd rest hf]

theorem variantsLoop_error (n : Str) (ev : List (Str × Str)) :
    ∀ files : List (Str × Except Unit Str),
      (∃ p ∈ files, variantFileCandidate p.1 = true ∧ p.2 = Except.error ()) →
        variantsLoop n ev files = none := by
  intro files
  induction files with
  | nil => intro h; simp at h
  | cons p rest ih =>
    intro h
    obtain ⟨f, rd⟩ := p
    rcases h with ⟨q, hq, hcand, herr⟩
    rcases List.mem_cons.mp hq with heq | hmem
    · subst heq
      simp only at hcand herr
      subst herr
      simp [variantsLoop, hcand]
    · by_cases hf : variantFileCandidate f = true
      · simp only [variantsLoop, hf]
        cases rd with
        | error e => simp
        | ok content =>
          dsimp only
          rw [ih ⟨q, hmem, hcand, herr⟩]
          cases mkVariant n f content ev <;> simp
      · rw [variantsLoop_skip n ev f rd rest (by simpa using hf)]
        exact ih ⟨q, hmem, hcand, herr⟩

theorem eventsLoop_skip (pre : List (Str × Except Unit Str))
    (hpre : ∀ p ∈ pre, eventsFileCandidate p.1 = false) :
    ∀ rest, eventsLoop (pre ++ rest) = eventsLoop rest := by
  induction pre with
  | nil => intro rest; rfl
  | cons p pre ih =>
    intro rest
    obtain ⟨f, rd⟩ := p
    have hf : eventsFileCandidate f = false := hpre (f, rd) (List.mem_cons_self _ _)
    simp only [List.cons_append, eventsLoop, hf]
    simp only [Bool.false_eq_true, if_false]
    exact ih (fun q hq => hpre q (List.mem_cons_of_mem _ hq)) rest

/-! ## Claims -/

/-- C1: a candidate file yields a variant record if and only if its text
contains both the `@customElement` marker and the `export class` marker and
both extractions succeed (`className` the first match of
`/export class (Md\w+)/`, `tagName` the first string-literal argument of the
`@customElement` marker); each file yields at most one variant (the variant
list is never longer than the file list); and on a text declaring tag
`my-button` and exported class `MdButton`, extraction yields `MdButton` and
`my-button`. -/
theorem C1_variant_extraction :
    (∀ (componentName file content : Str) (events : List (Str × Str)),
        (mkVariant componentName file content events).isSome = true ↔
          (hasSub ("@customElement".toList) content = true ∧
            hasSub ("export class".toList) content = true ∧
            (extractClassName content).isSome = true ∧
            (extractTagName content).isSome = true)) ∧
    (∀ (componentName : Str) (files : List (Str × Except Unit Str))
        (internal : Except Unit (List (Str × Except Unit Str))),
        (findAllComponentVariants componentName (Except.ok files) internal).length ≤
          files.length) ∧
    extractClassName sampleButtonTs = some ("MdButton".toList) ∧
    extractTagName sampleButtonTs = some ("my-button".toList) :=
  ⟨mkVariant_isSome, findAllComponentVariants_length, by decide, by decide⟩

/-- C10: variant-source selection is substring-based: a file whose name does
not end in `.ts`, or contains `internal`, `test` or `demo` anywhere in its
name, is skipped without even reading it (its read result is arbitrary), so
it yields no variant regardless of its contents; in particular `contest.ts`
and `demoted.ts` are excluded while `button.ts` is a candidate. -/
theorem C10_candidate_filter :
    (∀ (n : Str) (internal : Except Unit (List (Str × Except Unit Str)))
        (f : Str) (rd : Except Unit Str) (rest : List (Str × Except Unit Str)),
        variantFileCandidate f = false →
          findAllComponentVariants n (Except.ok ((f, rd) :: rest)) internal =
            findAllComponentVariants n (Except.ok rest) internal) ∧
    variantFileCandidate ("contest.ts".toList) = false ∧
    variantFileCandidate ("demoted.ts".toList) = false ∧
    variantFileCandidate ("button.ts".toList) = true :=
  ⟨fun n internal f rd rest hf => findAllComponentVariants_skip n internal f rd rest hf,
    by decide, by decide, by decide⟩

/-- C10 witness: `contest.ts` holds a perfectly well-formed component source,
yet contributes nothing (its name contains `test`). -/
theorem C10_candidate_filter_witness :
    variantFileCandidate ("contest.ts".toList) = false ∧
    findAllComponentVariants ("button".toList)
        (Except.ok [(("contest.ts".toList), Except.ok sampleButtonTs)]) (Except.error ()) =
      findAllComponentVariants ("button".toList) (Except.ok []) (Except.error ()) :=
  ⟨by decide, C10_candidate_filter.1 ("button".toList) (Except.error ()) ("contest.ts".toList)
    (Except.ok sampleButtonTs) [] (by decide)⟩

/-- C6: every read failure during extraction is converted to a neutral empty
value at the innermost enclosing `catch`: a failed directory listing yields
an empty variant list; a failed read of any candidate file inside a
component directory yields an empty variant list for that whole directory;
a missing or unreadable `internal` subdirectory yields an empty event map;
and a failed read of the first candidate internal file yields an empty event
map.  In this total model no case raises. -/
theorem C6_read_failures_neutral :
    (∀ (n : Str) (internal : Except Unit (List (Str × Except Unit Str))),
        findAllComponentVariants n (Except.error ()) internal = []) ∧
    (∀ (n : Str) (files : List (Str × Except Unit Str))
        (internal : Except Unit (List (Str × Except Unit Str))),
        (∃ p ∈ files, variantFileCandidate p.1 = true ∧ p.2 = Except.error ()) →
          findAllComponentVariants n (Except.ok files) internal = []) ∧
    extractEvents (Except.error ()) = [] ∧
    (∀ (pre : List (Str × Except Unit Str)) (f : Str)
        (rest : List (Str × Except Unit Str)),
        (∀ p ∈ pre, eventsFileCandidate p.1 = false) → eventsFileCandidate f = true →
          extractEvents (Except.ok (pre ++ (f, Except.error ()) :: rest)) = []) := by
  refine ⟨fun n internal => rfl, ?_, rfl, ?_⟩
  · intro n files internal h
    unfold findAllComponentVariants
    dsimp only
    rw [variantsLoop_error n _ files h]
    rfl
  · intro pre f rest hpre hf
    unfold extractEvents
    dsimp only
    rw [eventsLoop_skip pre hpre]
    simp [eventsLoop, hf]

/-- C6 witness: a component directory whose only candidate file is
unreadable yields `[]`, and an `internal` directory whose first candidate
file is unreadable yields the empty event map. -/
theorem C6_read_failures_neutral_witness :
    findAllComponentVariants ("button".toList)
        (Except.ok [(("button.ts".toList), Except.error ())]) (Except.error ()) = [] ∧
    extractEvents (Except.ok
        [(("button-styles.ts".toList), Except.ok []),
          (("button.ts".toList), Except.error ())]) = [] :=
  ⟨C6_read_failures_neutral.2.1 ("button".toList) _ (Except.error ())
      ⟨(("button.ts".toList), Except.error ()), by simp, by decide, rfl⟩,
    C6_read_failures_neutral.2.2.2 [(("button-styles.ts".toList), Except.ok [])]
      ("button.ts".toList) [] (by decide) (by decide)⟩

/-- C4: the event extractor processes the internal listing in order and
returns the mapping built from the first candidate file alone — later files
(`rest`) never influence the result, even when that mapping is empty. -/
theorem C4_first_candidate_only :
    ∀ (pre : List (Str × Except Unit Str)) (f c : Str)
      (rest : List (Str × Except Unit Str)),
      (∀ p ∈ pre, eventsFileCandidate p.1 = false) → eventsFileCandidate f = true →
        extractEvents (Except.ok (pre ++ (f, Except.ok c) :: rest)) = firesScan c := by
  intro pre f c rest hpre hf
  unfold extractEvents
  dsimp only
  rw [eventsLoop_skip pre hpre]
  simp [eventsLoop, hf]

/-- C4 witness: the first candidate internal file declares `@fires change`;
a later file declaring `@fires closed` is ignored, and `change` yields
handler key `onChange` mapping to `change`. -/
theorem C4_first_candidate_only_witness :
    extractEvents (Except.ok
        [(("button-styles.ts".toList), Except.ok []),
          (("button.ts".toList),
            Except.ok ("/** @fires change \x7bEvent\x7d Fired */".toList)),
          (("other.ts".toList),
            Except.ok ("/** @fires closed \x7bEvent\x7d Fired */".toList))]) =
      firesScan ("/** @fires change \x7bEvent\x7d Fired */".toList) ∧
    firesScan ("/** @fires change \x7bEvent\x7d Fired */".toList) =
      [(("onChange".toList), ("change".toList))] :=
  ⟨C4_first_candidate_only [(("button-styles.ts".toList), Except.ok [])]
      ("button.ts".toList) ("/** @fires change \x7bEvent\x7d Fired */".toList)
      [(("other.ts".toList), Except.ok ("/** @fires closed \x7bEvent\x7d Fired */".toList))]
      (by decide) (by decide),
    by decide⟩

/-- C5 counterexample: the handler-key derivation is not injective on
distinct event names.  The names `change` and `Change` are distinct, both
derive the key `onChange`, and on a file declaring both the constructed
mapping has a single entry — the first event's entry is lost to the
collision, contradicting the claim that any two distinct scanned event names
yield distinct keys. -/
theorem C5_distinct_names_key_collision :
    handlerName ("change".toList) = handlerName ("Change".toList) ∧
    ("change".toList) ≠ ("Change".toList) ∧
    firesScan ("* @fires change \x7bEvent\x7d a\n* @fires Change \x7bEvent\x7d b\n".toList) =
      [(("onChange".toList), ("Change".toList))] :=
  ⟨by decide, by decide, by decide⟩

theorem analyzeComponentStructure_skip (pre : List DirEntry) (e : DirEntry)
    (post : List DirEntry)
    (h : findAllComponentVariants e.name e.listing e.internal = []) :
    analyzeComponentStructure (pre ++ e :: post) = analyzeComponentStructure (pre ++ post) := by
  unfold analyzeComponentStructure
  rw [List.filterMap_append, List.filterMap_append, List.filterMap_cons]
  have he :
      (if eligibleEntry e then
          match findAllComponentVariants e.name e.listing e.internal with
          | [] => (none : Option Component)
          | vs => some { name := e.name, variants := vs }
        else none) = none := by
    rw [h]
    split <;> rfl
  rw [he]

/-- C7: a directory whose variant extraction yields zero variants is never
materialized: dropping it from the entry list leaves the analysis (and hence
the flattened export list feeding the aggregate manifest) unchanged, and the
wrapper generator returns the empty string on a component with zero
variants. -/
theorem C7_zero_variants_not_materialized :
    (∀ (pre : List DirEntry) (e : DirEntry) (post : List DirEntry),
        findAllComponentVariants e.name e.listing e.internal = [] →
          analyzeComponentStructure (pre ++ e :: post) =
              analyzeComponentStructure (pre ++ post) ∧
            allExports (analyzeComponentStructure (pre ++ e :: post)) =
              allExports (analyzeComponentStructure (pre ++ post))) ∧
    (∀ (ts n : Str), generateReactWrapper ts { name := n, variants := [] } = []) := by
  constructor
  · intro pre e post h
    have hs := analyzeComponentStructure_skip pre e post h
    exact ⟨hs, by rw [hs]⟩
  · intro ts n
    rfl

/-- C7 witness: an eligible directory whose only file is not a candidate
yields zero variants and drops out of the analysis entirely. -/
theorem C7_zero_variants_not_materialized_witness :
    analyzeComponentStructure
        [{ name := ("button".toList), isDir := true,
            listing := Except.ok [(("readme.md".toList), Except.ok [])],
            internal := Except.error () }] =
      analyzeComponentStructure [] ∧
    generateReactWrapper [] { name := ("button".toList), variants := [] } = [] :=
  ⟨(C7_zero_variants_not_materialized.1 []
      { name := ("button".toList), isDir := true,
        listing := Except.ok [(("readme.md".toList), Except.ok [])],
        internal := Except.error () } [] (by decide)).1,
    C7_zero_variants_not_materialized.2 [] ("button".toList)⟩

theorem replaceFirst_trailing_extension (rep : Str) :
    ∀ base : Str, hasSub (".ts".toList) base = false →
      replaceFirst (".ts".toList) rep (base ++ (".ts".toList)) = base ++ rep := by
  intro base
  induction base with
  | nil =>
    intro h
    simp [replaceFirst, List.isPrefixOf]
  | cons c cs ih =>
    intro h
    simp only [hasSub, Bool.or_eq_false_iff] at h
    obtain ⟨h1, h2⟩ := h
    have hp : (".ts".toList).isPrefixOf (c :: (cs ++ (".ts".toList))) = false := by
      match cs with
      | [] => simp [List.isPrefixOf]
      | [d] => simp [List.isPrefixOf]
      | d :: e :: cs2 =>
        simp only [List.isPrefixOf, List.cons_append] at h1 ⊢
        exact h1
    simp only [List.cons_append, replaceFirst, List.append_eq, hp, Bool.false_eq_true, if_false]
    rw [ih h2]

/-- C8 counterexample: the import path is computed with
`file.replace('.ts', '.js')`, which replaces the *first* occurrence of
`.ts`.  For the candidate file name `a.tsb.ts` (it ends in `.ts` and avoids
the excluded substrings) the emitted variant's import path is
`@material/web/button/a.jsb.ts`, not the claimed
`@material/web/button/a.tsb.js` built from the name with its trailing
extension removed. -/
theorem C8_import_path_first_occurrence :
    ((findAllComponentVariants ("button".toList)
          (Except.ok [(("a.tsb.ts".toList), Except.ok sampleButtonTs)])
          (Except.error ())).map (fun v => v.importPath)) =
        [("@material/web/button/a.jsb.ts".toList)] ∧
      ("@material/web/button/a.jsb.ts".toList) ≠ ("@material/web/button/a.tsb.js".toList) :=
  ⟨by decide, by decide⟩

/-- C8 amended: the import path of an emitted variant is the file name with
its *first* occurrence of `.ts` replaced by `.js`, prefixed by
`@material/web/<componentDirectoryName>/`; whenever the first occurrence of
`.ts` in the file name is its trailing extension (in particular for every
name containing `.ts` exactly once), this equals
`@material/web/<componentDirectoryName>/<fileNameWithoutExtension>.js` as
claimed. -/
theorem C8_import_path_form :
    ∀ (componentName base content : Str) (events : List (Str × Str)) (v : Variant),
      hasSub (".ts".toList) base = false →
      mkVariant componentName (base ++ (".ts".toList)) content events = some v →
      v.importPath =
        ("@material/web/".toList) ++ componentName ++ ('/' :: []) ++ base ++ (".js".toList) := by
  intro n base content ev v hb hm
  unfold mkVariant at hm
  split at hm
  · revert hm
    cases extractClassName content <;> cases extractTagName content <;> intro hm <;>
      simp only [Option.some.injEq, reduceCtorEq] at hm
    rw [← hm]
    dsimp only
    rw [replaceFirst_trailing_extension (".js".toList) base hb]
    simp only [List.append_assoc]
  · exact absurd hm (by simp)

/-- C8 amended witness: for the file `x.y.ts` (one `.ts` occurrence, at the
end) the emitted import path has exactly the claimed shape. -/
theorem C8_import_path_form_witness :
    hasSub (".ts".toList) ("x.y".toList) = false ∧
    ({ fileName := ("x.y".toList), className := ("MdButton".toList),
        tagName := ("my-button".toList),
        importPath := ("@material/web/button/x.y.js".toList), events := [],
        documentation := [], propertyDocs := [] : Variant }).importPath =
      ("@material/web/".toList) ++ ("button".toList) ++ ('/' :: []) ++ ("x.y".toList) ++
        (".js".toList) :=
  ⟨by decide,
    C8_import_path_form ("button".toList) ("x.y".toList) sampleButtonTs [] _
      (by decide) (by decide)⟩

theorem generateReactWrapper_factor (ts : Str) (c : Component) (h : c.variants ≠ []) :
    generateReactWrapper ts c = wrapperPre c ++ ts ++ wrapperPost c := by
  unfold generateReactWrapper wrapperPre wrapperPost
  rw [if_neg (by simpa using h)]
  simp only [List.append_assoc]

theorem generateMainIndex_factor (ts : Str) (exps : List ExportRecord) :
    generateMainIndex ts exps = indexPre ++ ts ++ indexPost exps := by
  unfold generateMainIndex indexPre indexPost
  simp only [List.append_assoc]

theorem analyzeComponentStructure_variants_ne (entries : List DirEntry) :
    ∀ c ∈ analyzeComponentStructure entries, c.variants ≠ [] := by
  intro c hc
  unfold analyzeComponentStructure at hc
  rw [List.mem_filterMap] at hc
  obtain ⟨e, _, hfe⟩ := hc
  split at hfe
  · cases hv : findAllComponentVariants e.name e.listing e.internal with
    | nil => rw [hv] at hfe; exact absurd hfe (by simp)
    | cons x xs =>
      rw [hv] at hfe
      simp only [Option.some.injEq] at hfe
      rw [← hfe]
      simp
  · exact absurd hfe (by simp)

/-- C9: the generation pipeline is deterministic up to the embedded
timestamp: for every input tree there is a timestamp-independent skeleton
(per output file, a path, a fixed prefix and a fixed suffix) such that a run
with any timestamp renders exactly that skeleton with the timestamp spliced
in.  Two runs over identical input therefore produce byte-identical wrapper
modules and aggregate manifest except for the timestamp in each header. -/
theorem C9_deterministic_up_to_timestamp :
    ∀ entries : List DirEntry, ∃ skel : List (Str × Str × Str),
      ∀ ts : Str, runPipeline entries ts = renderSkeleton skel ts := by
  intro entries
  refine
    ⟨(analyzeComponentStructure entries).map
        (fun c => (c.name ++ ("/index.tsx".toList), wrapperPre c, wrapperPost c)) ++
      [(("index.ts".toList), indexPre,
        indexPost (allExports (analyzeComponentStructure entries)))], ?_⟩
  intro ts
  unfold runPipeline renderSkeleton
  rw [List.map_append, List.map_map]
  congr 1
  · apply List.map_congr_left
    intro c hc
    simp only [Function.comp]
    rw [generateReactWrapper_factor ts c (analyzeComponentStructure_variants_ne entries c hc)]
  · simp [generateMainIndex_factor]

/-- C2 counterexample: the class-documentation regex anchors at the *first*
`/**` of the file and captures lazily up to the first `*/` that is followed
by `export class`.  On a file with an earlier comment block and intervening
code before the class's own documentation block, the extracted documentation
is `first */\nX\n/** second` — it contains the earlier block's text and the
intervening code line `X`, and is not the cleaned text `second` of the
nearest documentation block preceding the class-export marker, contradicting
the claim that only the nearest block's lines appear. -/
theorem C2_earlier_text_leaks :
    (extractDocumentation
        ("/** first */\nX\n/** second */\nexport class MdA".toList)).documentation =
      ("first */\nX\n/** second".toList) ∧
    (extractDocumentation
        ("/** first */\nX\n/** second */\nexport class MdA".toList)).documentation ≠
      ("second".toList) :=
  ⟨by decide, by decide⟩

/-- C2 amended: the capture runs from the first documentation-comment opener
`/**` in the file to the first comment terminator `*/` that is followed, up
to whitespace, by the class-export marker; the documentation is that
region's lines cleaned (comment markers stripped, blank and `@...` lines
dropped, rejoined with newlines).  When the first opener is the opener of
the block immediately preceding the class-export marker — no earlier opener
(`c0` contains no `/**`) and no terminator inside the block (`doc` contains
no `*/`) — the result is exactly the nearest block's cleaned lines, and no
earlier text appears. -/
theorem C2_class_documentation_capture :
    ∀ (c0 doc w rest : Str),
      hasSub ("/**".toList) c0 = false →
      hasSub ("*/".toList) doc = false →
      w.all isWs = true →
      (extractDocumentation (c0 ++ ("/**".toList) ++ doc ++ ("*/".toList) ++ w ++
          ("export class".toList) ++ rest)).documentation = cleanDocNl (trim doc) := by
  intro c0 doc w rest h0 hdoc hw
  simp only [List.append_assoc]
  unfold extractDocumentation
  dsimp only
  have hscan : classDocScan
      ((doc ++ (("*/".toList) ++ (w ++ (("export class".toList) ++ rest)))).dropWhile isWs) =
        some (trim doc) := by
    rw [dropWhile_ws_append doc (("*/".toList) ++ (w ++ (("export class".toList) ++ rest))) rfl]
    rw [commentClose_append]
    rw [← List.append_assoc w]
    exact classDocScan_through w rest hw (doc.dropWhile isWs)
      (hasSub_dropWhile ("*/".toList) isWs doc hdoc)
  rw [classDocFrom_through c0
    (doc ++ (("*/".toList) ++ (w ++ (("export class".toList) ++ rest)))) (trim doc) h0 hscan]

/-- C2 witness: on a file whose only comment opener is the class's own
documentation block, the extracted documentation is exactly that block's
cleaned lines (`@`-annotation lines dropped, markers stripped). -/
theorem C2_class_documentation_capture_witness :
    (extractDocumentation (("const x = 1;\n".toList) ++ ("/**".toList) ++
        (" Greets.\n * Cool.\n * @foo bar ".toList) ++ ("*/".toList) ++ ("\n".toList) ++
        ("export class".toList) ++ (" MdGreeter \x7b\x7d".toList))).documentation =
      cleanDocNl (trim (" Greets.\n * Cool.\n * @foo bar ".toList)) ∧
    cleanDocNl (trim (" Greets.\n * Cool.\n * @foo bar ".toList)) = ("Greets.\nCool.".toList) :=
  ⟨C2_class_documentation_capture ("const x = 1;\n".toList)
      (" Greets.\n * Cool.\n * @foo bar ".toList) ("\n".toList) (" MdGreeter \x7b\x7d".toList)
      (by decide) (by decide) (by decide),
    by decide⟩

/-- C3 counterexample: the property regex keys each entry by the first
whitespace-delimited word run after `@property` reachable without crossing
`}` — not by the property identifier.  On two adjacent documented properties
`foo` and `bar`, each declared with the common decorator form
`@property({type: Number})`, the captured key is `Number` for both, so
`propertyDocs` ends up with a single key `Number` holding only the second
block's text: there are not two distinct keys, no key is a property
identifier, and the first property's documentation is lost — contradicting
the claim. -/
theorem C3_property_key_not_identifier :
    (extractDocumentation
        ("/** A */\n@property(\x7btype: Number\x7d) foo;\n/** B */\n@property(\x7btype: Number\x7d) bar;".toList)).propertyDocs =
      [(("Number".toList), ("B".toList))] ∧
    objGet (extractDocumentation
        ("/** A */\n@property(\x7btype: Number\x7d) foo;\n/** B */\n@property(\x7btype: Number\x7d) bar;".toList)).propertyDocs
      ("foo".toList) = none ∧
    objGet (extractDocumentation
        ("/** A */\n@property(\x7btype: Number\x7d) foo;\n/** B */\n@property(\x7btype: Number\x7d) bar;".toList)).propertyDocs
      ("bar".toList) = none :=
  ⟨by decide, by decide, by decide⟩

/-- C3 amended: for two adjacent documented properties whose decorator text
between `@property` and the identifier contains no whitespace and no `}`
(so the word captured is the identifier itself), with distinct identifiers,
no stray comment opener before the first block or between and after the
blocks, no terminator inside either block, and non-empty cleaned docs,
`propertyDocs` has exactly the two identifiers as keys, each holding only
the cleaned one-line text of its own block — no leakage of one block's
lines into the other's entry. -/
theorem C3_adjacent_property_docs :
    ∀ (c0 A w1 p1 s1 a sep B w2 p2 s2 b tail : Str),
      hasSub ("/**".toList) c0 = false →
      hasSub ("*/".toList) A = false →
      w1.all isWs = true →
      p1.all (fun c => !isWs c && !(c = '\x7d')) = true →
      s1.all isWs = true → s1 ≠ [] →
      a.all isWordChar = true → a ≠ [] →
      headNonWord sep = true → hasSub ("/**".toList) sep = false →
      hasSub ("*/".toList) B = false →
      w2.all isWs = true →
      p2.all (fun c => !isWs c && !(c = '\x7d')) = true →
      s2.all isWs = true → s2 ≠ [] →
      b.all isWordChar = true → b ≠ [] →
      headNonWord tail = true → hasSub ("/**".toList) tail = false →
      a ≠ b →
      cleanDocSp (trim A) ≠ [] → cleanDocSp (trim B) ≠ [] →
      (extractDocumentation (c0 ++ ("/**".toList) ++ A ++ ("*/".toList) ++ w1 ++
          ("@property".toList) ++ p1 ++ s1 ++ a ++ sep ++ ("/**".toList) ++ B ++
          ("*/".toList) ++ w2 ++ ("@property".toList) ++ p2 ++ s2 ++ b ++ tail)).propertyDocs =
        [(a, cleanDocSp (trim A)), (b, cleanDocSp (trim B))] := by
  intro c0 A w1 p1 s1 a sep B w2 p2 s2 b tail h0 hA hw1 hp1 hs1 hs1ne ha hane hsep hsep0
    hB hw2 hp2 hs2 hs2ne hb hbne htail htail0 hab hcA hcB
  have h2 := matchOneProp_structured sep B w2 p2 s2 b tail hsep0 hB hw2 hp2 hs2 hs2ne
    hb hbne htail
  have h1 := matchOneProp_structured c0 A w1 p1 s1 a
    (sep ++ (("/**".toList) ++ (B ++ ('*' :: '/' ::
      (w2 ++ (("@property".toList) ++ (p2 ++ (s2 ++ (b ++ tail)))))))))
    h0 hA hw1 hp1 hs1 hs1ne ha hane (headNonWord_append_open sep _ hsep)
  have h3 := matchOneProp_none tail htail0
  unfold extractDocumentation
  dsimp only
  simp only [List.append_assoc, commentClose_append]
  exact (congrArg buildPropDocs
      (allPropMatches_two _ _ _ (trim A) a (trim B) b h1 h2 h3)).trans
    (buildPropDocs_two (trim A) (trim B) a b hab hcA hcB)

/-- C3 witness: two adjacent documented properties `alpha` and `beta` with
plain `@property()` decorators produce exactly the two entries, each holding
its own cleaned one-line doc. -/
theorem C3_adjacent_property_docs_witness :
    (extractDocumentation (("".toList) ++ ("/**".toList) ++ (" A doc ".toList) ++
        ("*/".toList) ++ ("\n".toList) ++ ("@property".toList) ++ ("()".toList) ++
        (" ".toList) ++ ("alpha".toList) ++ (" = 1;\n".toList) ++ ("/**".toList) ++
        (" B doc ".toList) ++ ("*/".toList) ++ ("\n".toList) ++ ("@property".toList) ++
        ("()".toList) ++ (" ".toList) ++ ("beta".toList) ++ (" = 2;".toList))).propertyDocs =
      [(("alpha".toList), cleanDocSp (trim (" A doc ".toList))),
        (("beta".toList), cleanDocSp (trim (" B doc ".toList)))] ∧
    cleanDocSp (trim (" A doc ".toList)) = ("A doc".toList) ∧
    cleanDocSp (trim (" B doc ".toList)) = ("B doc".toList) :=
  ⟨C3_adjacent_property_docs ("".toList) (" A doc ".toList) ("\n".toList) ("()".toList)
      (" ".toList) ("alpha".toList) (" = 1;\n".toList) (" B doc ".toList) ("\n".toList)
      ("()".toList) (" ".toList) ("beta".toList) (" = 2;".toList)
      (by decide) (by decide) (by decide) (by decide) (by decide) (by decide) (by decide)
      (by decide) (by decide) (by decide) (by decide) (by decide) (by decide) (by decide)
      (by decide) (by decide) (by decide) (by decide) (by decide) (by decide) (by decide)
      (by decide),
    by decide, by decide⟩

/-- C5 amended: two scanned event names derive the same handler key exactly
when their first characters have the same upper-cased form and their tails
coincide; hence any two distinct event names that do not differ merely in
the case of their first character yield distinct keys in the mapping. -/
theorem C5_handler_key_injectivity :
    ∀ (c1 c2 : Char) (t1 t2 : Str),
      handlerName (c1 :: t1) = handlerName (c2 :: t2) ↔
        (toUpperAscii c1 = toUpperAscii c2 ∧ t1 = t2) := by
  intro c1 c2 t1 t2
  simp [handlerName, capFirst]

end MWGen
